import Mathlib

set_option maxHeartbeats 1000000

/-
Verification development for the linked-list variants of the repository:
`first.rs` (ExclusiveList over i32), `second.rs` (GenericExclusiveList),
`third.rs` (PersistentList over Rc), `fourth.rs` (InteriorMutableDeque over
Rc<RefCell<_>>).  Each Rust structure is embedded shallowly: `Box` chains
become inductive values, the `Rc<RefCell<_>>` node graph of the deque becomes
an explicit heap of addressed nodes carried in the deque state, and the
reference-counting behaviour of `Rc` (strong counts, `Rc::try_unwrap`) is
derived from the number of links held in that state.
-/

/-- Heap addresses for the reference-counted models. -/
abbrev Addr := Nat

/-- An addressed heap of nodes (association list, addresses unique in
well-formed states). -/
abbrev Heap (α : Type) := List (Addr × α)

/-- Look up the node stored at address `a` (first matching entry). -/
def heapGet {α : Type} : List (Addr × α) → Addr → Option α
  | [], _ => Option.none
  | (b, n) :: t, a => if b = a then Option.some n else heapGet t a

/-- Overwrite the node stored at address `a` (in-place `RefCell` mutation). -/
def heapSet {α : Type} (h : List (Addr × α)) (a : Addr) (n : α) : List (Addr × α) :=
  h.map (fun p => if p.1 = a then (a, n) else p)

/-- Deallocate the node stored at address `a`. -/
def heapRemove {α : Type} (h : List (Addr × α)) (a : Addr) : List (Addr × α) :=
  h.filter (fun p => !(p.1 == a))

/-- Push every element of `xs`, in order, onto container `l`. -/
def pushAll {L T : Type} (push : L → T → L) (l : L) (xs : List T) : L :=
  xs.foldl push l

/-- Pop `n` times from container `l`, collecting the returned options. -/
def popN {L T : Type} (pop : L → Option T × L) : L → Nat → List (Option T) × L
  | l, 0 => ([], l)
  | l, n + 1 =>
    let r := pop l
    let rs := popN pop r.2 n
    (r.1 :: rs.1, rs.2)

/-- Apply a step function `n` times (a loop of `n` iterations). -/
def iterN {α : Type} (f : α → α) : α → Nat → α
  | a, 0 => a
  | a, n + 1 => iterN f (f a) n

/-!  ## `first.rs`: ExclusiveList over `i32`

`enum Link { Empty, More(Box<Node>) }` with `struct Node { elem: i32, next: Link }`.
`More e next` stands for `More(Box::new(Node { elem: e, next }))`; `i32` is
embedded as `Int` (no arithmetic is performed on elements).  -/

inductive First.Link where
  | Empty : First.Link
  | More (elem : Int) (next : First.Link) : First.Link
deriving DecidableEq

/-- `pub struct List { head: Link }` -/
structure First.List where
  head : First.Link
deriving DecidableEq

/-- `List::new` -/
def First.List.new : First.List := ⟨First.Link.Empty⟩

/-- `List::push`: the new node owns the previous head. -/
def First.List.push (l : First.List) (elem : Int) : First.List :=
  ⟨First.Link.More elem l.head⟩

/-- `List::pop`: `mem::replace(&mut self.head, Link::Empty)` then rebind. -/
def First.List.pop (l : First.List) : Option Int × First.List :=
  match l.head with
  | First.Link.Empty => (Option.none, l)
  | First.Link.More e next => (Option.some e, ⟨next⟩)

/-- Length of the ownership chain hanging off a link. -/
def First.Link.length : First.Link → Nat
  | First.Link.Empty => 0
  | First.Link.More _ next => next.length + 1

/-- One iteration of `Drop for List`'s `while let` loop: the loop state is
`some cur_link` while the loop is running and `none` once it has exited.
Each iteration takes one boxed node and moves its `next` out
(`mem::replace(&mut boxed_node.next, Link::Empty)`), unlinking exactly one node. -/
def First.dropStepO : Option First.Link → Option First.Link
  | Option.none => Option.none
  | Option.some First.Link.Empty => Option.none
  | Option.some (First.Link.More _ next) => Option.some next

/-!  ## `second.rs`: GenericExclusiveList

`type Link<T> = Option<Box<Node<T>>>` with `struct Node<T> { elem: T, next: Link<T> }`.
Constructor `some e next` stands for `Some(Box::new(Node { elem: e, next }))`. -/

inductive Second.Link (T : Type) where
  | none : Second.Link T
  | some (elem : T) (next : Second.Link T) : Second.Link T
deriving DecidableEq

/-- `pub struct List<T> { head: Link<T> }` -/
structure Second.List (T : Type) where
  head : Second.Link T
deriving DecidableEq

/-- `List::new` -/
def Second.List.new {T : Type} : Second.List T := ⟨Second.Link.none⟩

/-- `List::push`: `next: self.head.take()`, then `self.head = Some(new_node)`. -/
def Second.List.push {T : Type} (l : Second.List T) (elem : T) : Second.List T :=
  ⟨Second.Link.some elem l.head⟩

/-- `List::pop`: `self.head.take().map(|node| { self.head = node.next; node.elem })`. -/
def Second.List.pop {T : Type} (l : Second.List T) : Option T × Second.List T :=
  match l.head with
  | Second.Link.none => (Option.none, l)
  | Second.Link.some e next => (Option.some e, ⟨next⟩)

/-- `List::peek`: `self.head.as_ref().map(|node| &node.elem)`. -/
def Second.List.peek {T : Type} (l : Second.List T) : Option T :=
  match l.head with
  | Second.Link.none => Option.none
  | Second.Link.some e _ => Option.some e

/-- Length of the ownership chain hanging off a link. -/
def Second.Link.length {T : Type} : Second.Link T → Nat
  | Second.Link.none => 0
  | Second.Link.some _ next => next.length + 1

/-- One iteration of `Drop for List<T>`'s `while let` loop (see
`First.dropStepO`); `cur_link = boxed_node.next.take()` unlinks one node. -/
def Second.dropStepO {T : Type} : Option (Second.Link T) → Option (Second.Link T)
  | Option.none => Option.none
  | Option.some Second.Link.none => Option.none
  | Option.some (Second.Link.some _ next) => Option.some next

/-!  ## `third.rs`: PersistentList, value-level model

`type Link<T> = Option<Rc<Node<T>>>` with `struct Node<T> { elem: T, next: Link<T> }`.
At the level of the values observable through `head`/`tail`/`append`, `Rc`
is a transparent indirection, so `some e next` stands for
`Some(Rc::new(Node { elem: e, next }))`.  The sharing and destruction
behaviour of the `Rc` handles is modelled separately (`ThirdRc` below). -/

inductive Third.Link (T : Type) where
  | none : Third.Link T
  | some (elem : T) (next : Third.Link T) : Third.Link T
deriving DecidableEq

/-- `pub struct List<T> { head: Link<T> }` -/
structure Third.List (T : Type) where
  head : Third.Link T
deriving DecidableEq

/-- `List::new` -/
def Third.List.new {T : Type} : Third.List T := ⟨Third.Link.none⟩

/-- `List::append`: a fresh node whose `next` is `self.head.clone()`. -/
def Third.List.append {T : Type} (l : Third.List T) (elem : T) : Third.List T :=
  ⟨Third.Link.some elem l.head⟩

/-- `List::tail`: `self.head.as_ref().and_then(|node| node.next.clone())`. -/
def Third.List.tail {T : Type} (l : Third.List T) : Third.List T :=
  ⟨match l.head with
   | Third.Link.none => Third.Link.none
   | Third.Link.some _ next => next⟩

/-- `List::head`: `self.head.as_ref().map(|node| &node.elem)` (named `head?`
here because the Lean structure field `head` takes the source field's name). -/
def Third.List.head? {T : Type} (l : Third.List T) : Option T :=
  match l.head with
  | Third.Link.none => Option.none
  | Third.Link.some e _ => Option.some e

/-- `n`-fold application of `List::tail`. -/
def Third.List.tails {T : Type} : Third.List T → Nat → Third.List T
  | l, 0 => l
  | l, n + 1 => l.tail.tails n

/-!  ## `third.rs`: PersistentList, reference-count model

The `Rc` handles of `third.rs` made explicit: nodes live in an addressed
heap, a node's strong count is the number of links that reach it — `next`
fields of live nodes, heads of other lists (`extRefs`), plus any temporary
handle the destructor currently holds.  This is the level at which
`Drop for List<T>` (the active, loop-based destructor) operates. -/

structure ThirdRc.Node (T : Type) where
  elem : T
  next : Option Addr
deriving DecidableEq

/-- A list instance: its `head` handle into the shared heap. -/
structure ThirdRc.State (T : Type) where
  heap : List (Addr × ThirdRc.Node T)
  head : Option Addr
  fresh : Addr
deriving DecidableEq

/-- `List::append` at the heap level: allocate a fresh node whose `next`
is `self.head.clone()` (the same address, count incremented). -/
def ThirdRc.append {T : Type} (s : ThirdRc.State T) (elem : T) : ThirdRc.State T :=
  ⟨(s.fresh, ⟨elem, s.head⟩) :: s.heap, Option.some s.fresh, s.fresh + 1⟩

/-- `List::tail` at the heap level: clone the head node's `next` handle. -/
def ThirdRc.tail {T : Type} (s : ThirdRc.State T) : ThirdRc.State T :=
  ⟨s.heap, s.head.bind (fun a => (heapGet s.heap a).bind (fun n => n.next)), s.fresh⟩

/-- Address of the first node of a chain description (`none` if empty). -/
def ThirdRc.chainHead {T : Type} (c : List (Addr × T)) : Option Addr :=
  (c.head?).map Prod.fst

/-- Heap layout of a singly linked chain: node `i` holds element `i` and a
`next` handle to node `i+1`. -/
def ThirdRc.mkChain {T : Type} : List (Addr × T) → List (Addr × ThirdRc.Node T)
  | [] => []
  | (a, x) :: c => (a, ⟨x, ThirdRc.chainHead c⟩) :: ThirdRc.mkChain c

/-- Number of `next` handles in the heap that hold address `a`. -/
def ThirdRc.countNextTo {T : Type} (h : List (Addr × ThirdRc.Node T)) (a : Addr) : Nat :=
  h.countP (fun p => p.2.next == Option.some a)

/-- The loop of the active `Drop for List<T>`:
`cur_list = node.next.clone()` (a temporary handle `nxt`), then the handle
to the current node is dropped; the node is freed exactly when its strong
count reaches zero, i.e. when no other handle — external list head, `next`
field of a live node, or the temporary `nxt` — still holds it.  Freeing the
node releases its own `next` handle (the node leaves the heap), and the
temporary handle keeps the successor alive, so no deeper cascade happens.
`steps` counts loop iterations; `fuel` only forces termination and is
never exhausted on well-formed chains. -/
def ThirdRc.dropLoop {T : Type} :
    Nat → List (Addr × ThirdRc.Node T) → List Addr → Option Addr → Nat →
      List (Addr × ThirdRc.Node T) × Nat
  | 0, heap, _, _, steps => (heap, steps)
  | _ + 1, heap, _, Option.none, steps => (heap, steps)
  | fuel + 1, heap, extRefs, Option.some a, steps =>
    match heapGet heap a with
    | Option.none => (heap, steps)
    | Option.some node =>
      let nxt := node.next
      let rc := extRefs.count a + ThirdRc.countNextTo heap a +
        (if nxt = Option.some a then 1 else 0)
      if rc = 0 then
        ThirdRc.dropLoop fuel (heapRemove heap a) extRefs nxt (steps + 1)
      else
        ThirdRc.dropLoop fuel heap extRefs nxt (steps + 1)

/-- `Drop for List<T>`: `let mut cur_list = self.head.take();` then the loop.
Returns the final heap and the number of loop iterations (nodes traversed). -/
def ThirdRc.dropList {T : Type} (heap : List (Addr × ThirdRc.Node T))
    (extRefs : List Addr) (head : Option Addr) :
    List (Addr × ThirdRc.Node T) × Nat :=
  ThirdRc.dropLoop heap.length heap extRefs head 0

/-- Position of the first chain node still held by a handle elsewhere
(`c.length` if no node is shared). -/
def ThirdRc.sharedIdx {T : Type} (c : List (Addr × T)) (extRefs : List Addr) : Nat :=
  c.findIdx (fun p => extRefs.contains p.1)

/-!  ## `fourth.rs`: InteriorMutableDeque

`type Link<T> = Option<Rc<RefCell<Node<T>>>>` with
`struct Node<T> { elem: T, next: Link<T>, prev: Link<T> }` and
`pub struct List<T> { head: Link<T>, tail: Link<T> }`.

Nodes live in an addressed heap carried inside the deque state (each deque
owns its own node graph), a link is an optional address, and `RefCell`
mutation is in-place update of the heap.  A node's `Rc` strong count is the
number of links holding its address: the deque's `head`/`tail` fields plus
every live node's `next`/`prev` field (plus function-local handles, which
are accounted for at the single point where they matter, `Rc::try_unwrap`).
`pop_front`/`pop_back` return `none` (a panic) exactly when the source
would panic: `Rc::try_unwrap(..).ok().unwrap()` on a node whose strong
count is not 1, or a dangling address (impossible in well-formed states). -/

structure Fourth.Node (T : Type) where
  elem : T
  next : Option Addr
  prev : Option Addr
deriving DecidableEq

structure Fourth.List (T : Type) where
  head : Option Addr
  tail : Option Addr
  heap : Heap (Fourth.Node T)
  fresh : Addr
deriving DecidableEq

/-- `List::new` -/
def Fourth.List.new {T : Type} : Fourth.List T := ⟨Option.none, Option.none, [], 0⟩

/-- `List::push_front`: allocate `Node::new(elem)`; in the non-empty case
rewrite `old_head.prev` and link `new_head.next`, in the empty case set
both `head` and `tail` to the new node. -/
def Fourth.List.push_front {T : Type} (s : Fourth.List T) (elem : T) : Fourth.List T :=
  let a := s.fresh
  match s.head with
  | Option.some oldA =>
    match heapGet s.heap oldA with
    | Option.some oldN =>
      ⟨Option.some a, s.tail,
        (a, ⟨elem, Option.some oldA, Option.none⟩) ::
          heapSet s.heap oldA ⟨oldN.elem, oldN.next, Option.some a⟩,
        a + 1⟩
    | Option.none => s
  | Option.none =>
      ⟨Option.some a, Option.some a, (a, ⟨elem, Option.none, Option.none⟩) :: s.heap, a + 1⟩

/-- `List::push_back`: mirror image of `push_front`. -/
def Fourth.List.push_back {T : Type} (s : Fourth.List T) (elem : T) : Fourth.List T :=
  let a := s.fresh
  match s.tail with
  | Option.some oldA =>
    match heapGet s.heap oldA with
    | Option.some oldN =>
      ⟨s.head, Option.some a,
        (a, ⟨elem, Option.none, Option.some oldA⟩) ::
          heapSet s.heap oldA ⟨oldN.elem, Option.some a, oldN.prev⟩,
        a + 1⟩
    | Option.none => s
  | Option.none =>
      ⟨Option.some a, Option.some a, (a, ⟨elem, Option.none, Option.none⟩) :: s.heap, a + 1⟩

/-- Number of links in deque `s` (head/tail fields and node `next`/`prev`
fields) holding address `a`; together with any live local handle this is
the `Rc` strong count of the node at `a`. -/
def Fourth.refsTo {T : Type} (s : Fourth.List T) (a : Addr) : Nat :=
  (if s.head = Option.some a then 1 else 0) +
  (if s.tail = Option.some a then 1 else 0) +
  s.heap.countP (fun p => p.2.next == Option.some a) +
  s.heap.countP (fun p => p.2.prev == Option.some a)

/-- `List::pop_front`: `self.head.take().map(|old_head| ...)`.  The match
scrutinee `old_head.borrow_mut().next.take()` clears the old head's `next`
first; the non-emptying branch then clears `new_head.prev` and rebinds
`self.head`, the emptying branch takes `self.tail`.  Finally
`Rc::try_unwrap(old_head)` succeeds iff the only remaining handle is the
local `old_head` (i.e. `refsTo` of the updated state is 0); on success the
node is deallocated and its element moved out, otherwise the source panics
(`None` here). -/
def Fourth.List.pop_front {T : Type} (s : Fourth.List T) :
    Option (Option T × Fourth.List T) :=
  match s.head with
  | Option.none => Option.some (Option.none, s)
  | Option.some oldA =>
    match heapGet s.heap oldA with
    | Option.none => Option.none
    | Option.some oldN =>
      let heap1 := heapSet s.heap oldA ⟨oldN.elem, Option.none, oldN.prev⟩
      match oldN.next with
      | Option.some newA =>
        match heapGet heap1 newA with
        | Option.none => Option.none
        | Option.some newN =>
          let heap2 := heapSet heap1 newA ⟨newN.elem, newN.next, Option.none⟩
          let s' : Fourth.List T := ⟨Option.some newA, s.tail, heap2, s.fresh⟩
          if Fourth.refsTo s' oldA = 0 then
            Option.some (Option.some oldN.elem,
              ⟨s'.head, s'.tail, heapRemove s'.heap oldA, s'.fresh⟩)
          else Option.none
      | Option.none =>
        let s' : Fourth.List T := ⟨Option.none, Option.none, heap1, s.fresh⟩
        if Fourth.refsTo s' oldA = 0 then
          Option.some (Option.some oldN.elem,
            ⟨s'.head, s'.tail, heapRemove s'.heap oldA, s'.fresh⟩)
        else Option.none

/-- `List::pop_back`: mirror image of `pop_front`. -/
def Fourth.List.pop_back {T : Type} (s : Fourth.List T) :
    Option (Option T × Fourth.List T) :=
  match s.tail with
  | Option.none => Option.some (Option.none, s)
  | Option.some oldA =>
    match heapGet s.heap oldA with
    | Option.none => Option.none
    | Option.some oldN =>
      let heap1 := heapSet s.heap oldA ⟨oldN.elem, oldN.next, Option.none⟩
      match oldN.prev with
      | Option.some newA =>
        match heapGet heap1 newA with
        | Option.none => Option.none
        | Option.some newN =>
          let heap2 := heapSet heap1 newA ⟨newN.elem, Option.none, newN.prev⟩
          let s' : Fourth.List T := ⟨s.head, Option.some newA, heap2, s.fresh⟩
          if Fourth.refsTo s' oldA = 0 then
            Option.some (Option.some oldN.elem,
              ⟨s'.head, s'.tail, heapRemove s'.heap oldA, s'.fresh⟩)
          else Option.none
      | Option.none =>
        let s' : Fourth.List T := ⟨Option.none, Option.none, heap1, s.fresh⟩
        if Fourth.refsTo s' oldA = 0 then
          Option.some (Option.some oldN.elem,
            ⟨s'.head, s'.tail, heapRemove s'.heap oldA, s'.fresh⟩)
        else Option.none

/-- `List::peek_front`: `Ref::map(node.borrow(), |node| &node.elem)`, read
as the value currently visible through the guard. -/
def Fourth.List.peek_front {T : Type} (s : Fourth.List T) : Option T :=
  s.head.bind (fun a => (heapGet s.heap a).map (fun n => n.elem))

/-- `List::peek_back`. -/
def Fourth.List.peek_back {T : Type} (s : Fourth.List T) : Option T :=
  s.tail.bind (fun a => (heapGet s.heap a).map (fun n => n.elem))

/-- `List::peek_front_mut`: returns the `RefMut` guard, modelled by the
address of the node whose `elem` field it mutably borrows. -/
def Fourth.List.peek_front_mut {T : Type} (s : Fourth.List T) : Option Addr :=
  s.head

/-- Writing a value through a `RefMut` guard (then releasing the guard):
in-place update of the guarded node's `elem` field. -/
def Fourth.guardWrite {T : Type} (s : Fourth.List T) (g : Addr) (v : T) : Fourth.List T :=
  match heapGet s.heap g with
  | Option.some n => ⟨s.head, s.tail, heapSet s.heap g ⟨v, n.next, n.prev⟩, s.fresh⟩
  | Option.none => s

/-- The four mutating deque operations. -/
inductive Fourth.Op (T : Type) where
  | push_front (x : T) : Fourth.Op T
  | push_back (x : T) : Fourth.Op T
  | pop_front : Fourth.Op T
  | pop_back : Fourth.Op T
deriving DecidableEq

/-- Run one deque operation; `none` means the operation panicked. -/
def runOp {T : Type} (s : Fourth.List T) : Fourth.Op T → Option (Fourth.List T)
  | Fourth.Op.push_front x => Option.some (s.push_front x)
  | Fourth.Op.push_back x => Option.some (s.push_back x)
  | Fourth.Op.pop_front => (s.pop_front).map Prod.snd
  | Fourth.Op.pop_back => (s.pop_back).map Prod.snd

/-- Run a sequence of deque operations; `none` means some operation panicked. -/
def runOps {T : Type} (s : Fourth.List T) : List (Fourth.Op T) → Option (Fourth.List T)
  | [] => Option.some s
  | op :: ops => (runOp s op).bind (fun s' => runOps s' ops)

/-- The consuming iterator `IntoIter` driven by an arbitrary interleaving of
pulls: `true` is `Iterator::next` (= `pop_front`), `false` is
`DoubleEndedIterator::next_back` (= `pop_back`).  `none` means a panic. -/
def drainDeque {T : Type} :
    Fourth.List T → List Bool → Option (List (Option T) × Fourth.List T)
  | s, [] => Option.some ([], s)
  | s, pull :: pulls =>
    match (if pull then s.pop_front else s.pop_back) with
    | Option.none => Option.none
    | Option.some (r, s') =>
      (drainDeque s' pulls).map (fun rs => (r :: rs.1, rs.2))

/-- Reference behaviour of double-ended draining on a plain list: a front
pull yields `head?`, a back pull yields `getLast?`. -/
def drainModel {T : Type} : List T → List Bool → List (Option T)
  | _, [] => []
  | l, true :: pulls => l.head? :: drainModel l.tail pulls
  | l, false :: pulls => l.getLast? :: drainModel l.dropLast pulls

/-- Chain description left after a sequence of pulls. -/
def chainDrain {T : Type} : List (Addr × T) → List Bool → List (Addr × T)
  | c, [] => c
  | c, true :: pulls => chainDrain c.tail pulls
  | c, false :: pulls => chainDrain c.dropLast pulls

/-- First address of a chain description, with default `q`. -/
def headAddr {T : Type} (c : List (Addr × T)) (q : Option Addr) : Option Addr :=
  match c with
  | [] => q
  | (a, _) :: _ => Option.some a

/-- Last address of a chain description, with default `q`. -/
def lastAddr {T : Type} (c : List (Addr × T)) (q : Option Addr) : Option Addr :=
  headAddr c.reverse q

/-- Element sequence of a chain description. -/
def elems {T : Type} (c : List (Addr × T)) : List T := c.map Prod.snd

/-- Canonical heap layout of a doubly linked chain: the first node's `prev`
is `p`, the last node's `next` is `q` (both `none` for a whole deque),
interior nodes point at their neighbours. -/
def mkNodes {T : Type} :
    List (Addr × T) → Option Addr → Option Addr → Heap (Fourth.Node T)
  | [], _, _ => []
  | (a, x) :: c, p, q =>
    (a, ⟨x, headAddr c q, p⟩) :: mkNodes c (Option.some a) q

/-- `s` is a well-formed deque whose nodes, front to back, are described by
`c` (addresses paired with elements): addresses are distinct and below the
allocation counter, `head`/`tail` hold the first/last address, and the heap
is (up to entry order) exactly the doubly linked chain over `c`. -/
def Represents {T : Type} (s : Fourth.List T) (c : List (Addr × T)) : Prop :=
  (c.map Prod.fst).Nodup ∧
  (∀ a ∈ c.map Prod.fst, a < s.fresh) ∧
  s.head = headAddr c Option.none ∧
  s.tail = lastAddr c Option.none ∧
  s.heap.Perm (mkNodes c Option.none Option.none)

/-- Entry-wise link reversal (swap `next` and `prev`). -/
def Fourth.Node.rev {T : Type} (n : Fourth.Node T) : Fourth.Node T :=
  ⟨n.elem, n.prev, n.next⟩

/-- Whole-deque reversal: swap `head`/`tail` and every node's links.
`push_back`/`pop_back` are exactly `push_front`/`pop_front` conjugated by
this symmetry. -/
def Fourth.List.rev {T : Type} (s : Fourth.List T) : Fourth.List T :=
  ⟨s.tail, s.head, s.heap.map (fun p => (p.1, p.2.rev)), s.fresh⟩

/-!  ## Concrete states used by the claims and witnesses -/

/-- Persistent list `new().append(1).append(2).append(3)`. -/
def thirdBase : Third.List Int := ((Third.List.new.append 1).append 2).append 3

/-- Deque with front-to-back contents `[3, 2, 1]` (front-pushed). -/
def exDeque : Fourth.List Int :=
  ((Fourth.List.new.push_front 1).push_front 2).push_front 3

/-- Chain description of `exDeque`. -/
def exChainD : List (Addr × Int) := [(2, 3), (1, 2), (0, 1)]

/-- Deque built by `push_front(3); push_front(2); push_front(1)` (front = 1). -/
def exDeque9 : Fourth.List Int :=
  ((Fourth.List.new.push_front 3).push_front 2).push_front 1

/-- A four-node persistent chain at addresses 0..3. -/
def exChain5 : List (Addr × Int) := [(0, 10), (1, 11), (2, 12), (3, 13)]

/-- One external handle holding node 2 of `exChain5` (a shared suffix). -/
def exShared : List Addr := [2]

/-!  # Helper lemmas -/

theorem popN_succ {L T : Type} (pop : L → Option T × L) (l : L) (n : Nat) :
    popN pop l (n + 1) =
      ((pop l).1 :: (popN pop (pop l).2 n).1, (popN pop (pop l).2 n).2) := rfl

/-- Popping `m + xs.length` times after pushing `xs` first returns the pushed
values in reverse order, then behaves like `m` pops on the original list. -/
theorem popN_pushAll {L T : Type} (push : L → T → L) (pop : L → Option T × L)
    (hpp : ∀ l x, pop (push l x) = (Option.some x, l)) :
    ∀ (xs : List T) (l : L) (m : Nat),
      popN pop (pushAll push l xs) (m + xs.length) =
        (xs.reverse.map Option.some ++ (popN pop l m).1, (popN pop l m).2) := by
  intro xs
  induction xs with
  | nil => intro l m; simp [pushAll]
  | cons x xs ih =>
    intro l m
    have h1 : pushAll push l (x :: xs) = pushAll push (push l x) xs := by
      simp [pushAll]
    have h2 : m + (x :: xs).length = (m + 1) + xs.length := by
      simp only [List.length_cons]; omega
    rw [h1, h2, ih (push l x) (m + 1)]
    have h3 : popN pop (push l x) (m + 1) =
        (Option.some x :: (popN pop l m).1, (popN pop l m).2) := by
      rw [popN_succ, hpp]
    rw [h3]
    simp

theorem third_tails_add {T : Type} :
    ∀ (a : Nat) (l : Third.List T) (b : Nat),
      l.tails (a + b) = (l.tails a).tails b := by
  intro a
  induction a with
  | zero => intro l b; simp only [Nat.zero_add]; rfl
  | succ a ih =>
    intro l b
    have h : (a + 1) + b = (a + b) + 1 := by omega
    rw [h]
    show (l.tail).tails (a + b) = _
    exact ih l.tail b

theorem third_new_tails {T : Type} :
    ∀ n : Nat, (Third.List.new : Third.List T).tails n = Third.List.new := by
  intro n
  induction n with
  | zero => rfl
  | succ n ih =>
    show (Third.List.new.tail).tails n = _
    exact ih

theorem first_drop_iter (k : First.Link) :
    iterN First.dropStepO (Option.some k) k.length = Option.some First.Link.Empty ∧
    iterN First.dropStepO (Option.some k) (k.length + 1) = Option.none := by
  induction k with
  | Empty => exact ⟨rfl, rfl⟩
  | More e next ih =>
    refine ⟨?_, ?_⟩
    · show iterN First.dropStepO (Option.some next) next.length = _
      exact ih.1
    · show iterN First.dropStepO (Option.some next) (next.length + 1) = _
      exact ih.2

theorem second_drop_iter {T : Type} (k : Second.Link T) :
    iterN Second.dropStepO (Option.some k) k.length =
      Option.some Second.Link.none ∧
    iterN Second.dropStepO (Option.some k) (k.length + 1) = Option.none := by
  induction k with
  | none => exact ⟨rfl, rfl⟩
  | some e next ih =>
    refine ⟨?_, ?_⟩
    · show iterN Second.dropStepO (Option.some next) next.length = _
      exact ih.1
    · show iterN Second.dropStepO (Option.some next) (next.length + 1) = _
      exact ih.2

theorem popN_empty_first (l : First.List) (h : l.head = First.Link.Empty) :
    ∀ n : Nat, popN First.List.pop l n = (List.replicate n Option.none, l) := by
  obtain ⟨hd⟩ := l
  cases h
  intro n
  induction n with
  | zero => rfl
  | succ n ih =>
    rw [popN_succ]
    simp only [First.List.pop]
    rw [ih]
    rfl

theorem popN_empty_second {T : Type} (l : Second.List T)
    (h : l.head = Second.Link.none) :
    ∀ n : Nat, popN Second.List.pop l n = (List.replicate n Option.none, l) := by
  obtain ⟨hd⟩ := l
  cases h
  intro n
  induction n with
  | zero => rfl
  | succ n ih =>
    rw [popN_succ]
    simp only [Second.List.pop]
    rw [ih]
    rfl

/-!  # Claims -/

/-- C1: for every sequence of `n` pushes followed by `n` pops on an
ExclusiveList (`first.rs`) or GenericExclusiveList (`second.rs`) starting
from `new()`, the pops return the pushed values in exact reverse order of
pushing (LIFO), each as a present (`Some`) result. -/
theorem C1_push_pop_lifo :
    (∀ xs : List Int,
      (popN First.List.pop (pushAll First.List.push First.List.new xs) xs.length).1
        = xs.reverse.map Option.some) ∧
    (∀ (T : Type) (xs : List T),
      (popN Second.List.pop (pushAll Second.List.push Second.List.new xs) xs.length).1
        = xs.reverse.map Option.some) := by
  constructor
  · intro xs
    have h := popN_pushAll First.List.push First.List.pop
      (fun l x => rfl) xs First.List.new 0
    have h1 := congrArg Prod.fst h
    simpa [popN] using h1
  · intro T xs
    have h := popN_pushAll Second.List.push Second.List.pop
      (fun l x => rfl) xs Second.List.new 0
    have h1 := congrArg Prod.fst h
    simpa [popN] using h1

/-- C3: for `base = new().append(1).append(2).append(3)` (`third.rs`),
`base.head()` is `Some(3)`, `base.tail().head()` is `Some(2)`, every
further application of `tail()` past the end (3 or more tails) yields a
list whose `head()` is absent — in particular the empty list is an
absorbing state of `tail` — and in general `tail()` of an empty or
one-element list is the empty list. -/
theorem C3_persistent_tail_head :
    thirdBase.head? = Option.some 3 ∧
    thirdBase.tail.head? = Option.some 2 ∧
    (∀ n : Nat, (thirdBase.tails (3 + n)).head? = Option.none) ∧
    (∀ (T : Type) (x : T), (Third.List.new.append x).tail = Third.List.new) ∧
    (∀ T : Type, (Third.List.new : Third.List T).tail = Third.List.new) := by
  refine ⟨rfl, rfl, ?_, ?_, ?_⟩
  · intro n
    rw [third_tails_add 3 thirdBase n]
    have h3 : thirdBase.tails 3 = Third.List.new := rfl
    rw [h3, third_new_tails n]
    rfl
  · intro T x; rfl
  · intro T; rfl

/-- C10: for every persistent list `l` and value `x` (`third.rs`),
`l.append(x).tail()` equals `l` itself — the same element sequence — and
at the `Rc` heap level the tail of the appended list holds the very same
head handle (address) as `l`, i.e. it shares `l`'s node chain. -/
theorem C10_tail_left_inverse_of_append :
    (∀ (T : Type) (l : Third.List T) (x : T), (l.append x).tail = l) ∧
    (∀ (T : Type) (s : ThirdRc.State T) (x : T),
      (ThirdRc.tail (ThirdRc.append s x)).head = s.head) := by
  constructor
  · intro T l x; rfl
  · intro T s x
    simp [ThirdRc.tail, ThirdRc.append, heapGet]

/-!  ## Heap and chain lemmas for the deque model -/

theorem heapGet_cons {α : Type} (b : Addr) (n : α) (t : List (Addr × α)) (a : Addr) :
    heapGet ((b, n) :: t) a = if b = a then Option.some n else heapGet t a := rfl

theorem heapSet_cons {α : Type} (b : Addr) (n : α) (t : List (Addr × α)) (a : Addr)
    (m : α) :
    heapSet ((b, n) :: t) a m =
      (if b = a then (a, m) else (b, n)) :: heapSet t a m := by
  by_cases hc : b = a <;> simp [heapSet, hc]

theorem heapRemove_cons {α : Type} (e : Addr × α) (t : List (Addr × α)) (a : Addr) :
    heapRemove (e :: t) a =
      if e.1 = a then heapRemove t a else e :: heapRemove t a := by
  by_cases hc : e.1 = a <;> simp [heapRemove, List.filter_cons, hc]

theorem heapSet_not_mem {α : Type} {h : List (Addr × α)} {a : Addr} {m : α}
    (ha : a ∉ h.map Prod.fst) : heapSet h a m = h := by
  induction h with
  | nil => rfl
  | cons e t ih =>
    rw [List.map_cons, List.mem_cons] at ha
    push_neg at ha
    obtain ⟨b, n⟩ := e
    rw [heapSet_cons, if_neg (fun hc => ha.1 hc.symm), ih ha.2]

theorem heapRemove_not_mem {α : Type} {h : List (Addr × α)} {a : Addr}
    (ha : a ∉ h.map Prod.fst) : heapRemove h a = h := by
  induction h with
  | nil => rfl
  | cons e t ih =>
    rw [List.map_cons, List.mem_cons] at ha
    push_neg at ha
    rw [heapRemove_cons, if_neg (fun hc => ha.1 hc.symm), ih ha.2]

theorem heapSet_keys {α : Type} (h : List (Addr × α)) (a : Addr) (m : α) :
    (heapSet h a m).map Prod.fst = h.map Prod.fst := by
  induction h with
  | nil => rfl
  | cons e t ih =>
    obtain ⟨b, n⟩ := e
    rw [heapSet_cons]
    by_cases hc : b = a
    · subst hc; simp [ih]
    · simp [if_neg hc, ih]

theorem heapGet_perm {α : Type} {h1 h2 : List (Addr × α)} (p : h1.Perm h2)
    (nd : (h1.map Prod.fst).Nodup) (a : Addr) : heapGet h1 a = heapGet h2 a := by
  induction p with
  | nil => rfl
  | cons x p ih =>
    rw [List.map_cons, List.nodup_cons] at nd
    obtain ⟨b, n⟩ := x
    rw [heapGet_cons, heapGet_cons]
    by_cases hc : b = a
    · rw [if_pos hc, if_pos hc]
    · rw [if_neg hc, if_neg hc]; exact ih nd.2
  | swap x y l =>
    obtain ⟨b, n⟩ := y
    obtain ⟨d, m⟩ := x
    rw [List.map_cons, List.map_cons, List.nodup_cons] at nd
    have hbd : b ≠ d := by
      intro hc
      exact nd.1 (by simp [hc])
    rw [heapGet_cons, heapGet_cons, heapGet_cons, heapGet_cons]
    by_cases h1 : b = a <;> by_cases h2 : d = a
    · exact absurd (h1.trans h2.symm) hbd
    · rw [if_pos h1, if_neg h2, if_pos h1]
    · rw [if_neg h1, if_pos h2, if_pos h2]
    · rw [if_neg h1, if_neg h2, if_neg h2, if_neg h1]
  | trans p1 p2 ih1 ih2 =>
    have nd2 := ((p1.map Prod.fst).nodup_iff).mp nd
    rw [ih1 nd, ih2 nd2]

theorem mkNodes_fst {T : Type} :
    ∀ (c : List (Addr × T)) (p q : Option Addr),
      (mkNodes c p q).map Prod.fst = c.map Prod.fst := by
  intro c
  induction c with
  | nil => intro p q; rfl
  | cons e c ih =>
    obtain ⟨a, x⟩ := e
    intro p q
    show a :: (mkNodes c (Option.some a) q).map Prod.fst = _
    rw [ih]
    rfl

theorem headAddr_append {T : Type} (l1 l2 : List (Addr × T)) (q : Option Addr) :
    headAddr (l1 ++ l2) q = headAddr l1 (headAddr l2 q) := by
  cases l1 with
  | nil => rfl
  | cons e t => obtain ⟨a, x⟩ := e; rfl

theorem headAddr_ne_nil {T : Type} {c : List (Addr × T)} (h : c ≠ [])
    (q q' : Option Addr) : headAddr c q = headAddr c q' := by
  cases c with
  | nil => exact absurd rfl h
  | cons e t => rfl

theorem lastAddr_cons {T : Type} (e : Addr × T) {c : List (Addr × T)} (h : c ≠ [])
    (q : Option Addr) : lastAddr (e :: c) q = lastAddr c q := by
  rw [lastAddr, lastAddr, List.reverse_cons, headAddr_append]
  exact headAddr_ne_nil (by simpa using h) _ _

theorem lastAddr_mem {T : Type} {c : List (Addr × T)} (h : c ≠ []) (q : Option Addr) :
    ∃ k ∈ c.map Prod.fst, lastAddr c q = Option.some k := by
  rw [lastAddr]
  cases hr : c.reverse with
  | nil => exact absurd (by simpa using congrArg List.reverse hr) h
  | cons e t =>
    refine ⟨e.1, ?_, ?_⟩
    · have he : e ∈ c := by
        have : e ∈ c.reverse := by rw [hr]; exact List.mem_cons_self _ _
        simpa using this
      exact List.mem_map_of_mem _ he
    · obtain ⟨k, v⟩ := e; rfl

theorem heapGet_mkNodes_head {T : Type} (a : Addr) (x : T) (c : List (Addr × T))
    (p q : Option Addr) :
    heapGet (mkNodes ((a, x) :: c) p q) a = Option.some ⟨x, headAddr c q, p⟩ := by
  show (if a = a then _ else _) = _
  rw [if_pos rfl]

theorem heapSet_mkNodes_head {T : Type} (a : Addr) (x : T) (c : List (Addr × T))
    (p p' q : Option Addr) (ha : a ∉ c.map Prod.fst) :
    heapSet (mkNodes ((a, x) :: c) p q) a ⟨x, headAddr c q, p'⟩ =
      mkNodes ((a, x) :: c) p' q := by
  have h1 : a ∉ (mkNodes c (Option.some a) q).map Prod.fst := by
    rw [mkNodes_fst]; exact ha
  show heapSet ((a, ⟨x, headAddr c q, p⟩) :: mkNodes c (Option.some a) q) a _ = _
  rw [heapSet_cons, if_pos rfl, heapSet_not_mem h1]
  rfl

theorem countP_mkNodes_next {T : Type} :
    ∀ (c : List (Addr × T)) (p q : Option Addr) (t : Addr),
      t ∉ c.map Prod.fst → q ≠ Option.some t →
      (mkNodes c p q).countP (fun e => e.2.next == Option.some t) = 0 := by
  intro c
  induction c with
  | nil => intro p q t _ _; rfl
  | cons e c ih =>
    obtain ⟨a, x⟩ := e
    intro p q t ht hq
    rw [List.map_cons, List.mem_cons] at ht
    push_neg at ht
    show List.countP _ ((a, ⟨x, headAddr c q, p⟩) :: mkNodes c (Option.some a) q) = 0
    rw [List.countP_cons, ih (Option.some a) q t ht.2 hq]
    have hv : headAddr c q ≠ Option.some t := by
      cases c with
      | nil => exact hq
      | cons f c2 =>
        obtain ⟨b, y⟩ := f
        intro hc
        have hb : b = t := by
          simp only [headAddr] at hc
          injection hc
        exact ht.2 (by simp [hb])
    simp [hv]

theorem countP_mkNodes_prev {T : Type} :
    ∀ (c : List (Addr × T)) (p q : Option Addr) (t : Addr),
      t ∉ c.map Prod.fst → p ≠ Option.some t →
      (mkNodes c p q).countP (fun e => e.2.prev == Option.some t) = 0 := by
  intro c
  induction c with
  | nil => intro p q t _ _; rfl
  | cons e c ih =>
    obtain ⟨a, x⟩ := e
    intro p q t ht hp
    rw [List.map_cons, List.mem_cons] at ht
    push_neg at ht
    show List.countP _ ((a, ⟨x, headAddr c q, p⟩) :: mkNodes c (Option.some a) q) = 0
    have ha : Option.some a ≠ Option.some t := by
      intro hc
      exact ht.1.symm (by injection hc) |>.elim
    rw [List.countP_cons, ih (Option.some a) q t ht.2 ha]
    simp [hp]

theorem headAddr_nil {T : Type} (q : Option Addr) :
    headAddr ([] : List (Addr × T)) q = q := rfl

theorem headAddr_cons {T : Type} (a : Addr) (x : T) (c : List (Addr × T))
    (q : Option Addr) : headAddr ((a, x) :: c) q = Option.some a := rfl

theorem new_represents {T : Type} : Represents (Fourth.List.new : Fourth.List T) [] := by
  refine ⟨List.nodup_nil, ?_, rfl, rfl, List.Perm.refl _⟩
  intro a ha
  simp at ha

theorem push_front_spec {T : Type} {s : Fourth.List T} {c : List (Addr × T)}
    (R : Represents s c) (x : T) :
    Represents (s.push_front x) ((s.fresh, x) :: c) := by
  obtain ⟨nd, bd, hh, ht, hp⟩ := R
  have hfr : s.fresh ∉ c.map Prod.fst := fun hmem => absurd (bd _ hmem) (lt_irrefl _)
  have hknd : (s.heap.map Prod.fst).Nodup := by
    have kp := hp.map Prod.fst
    rw [mkNodes_fst] at kp
    exact kp.nodup_iff.mpr nd
  cases c with
  | nil =>
    have hh' : s.head = Option.none := hh
    have hheap : s.heap = [] := hp.eq_nil
    have hpf : s.push_front x =
        ⟨Option.some s.fresh, Option.some s.fresh,
          (s.fresh, ⟨x, Option.none, Option.none⟩) :: s.heap, s.fresh + 1⟩ := by
      simp only [Fourth.List.push_front, hh']
    rw [hpf]
    refine ⟨by simp, ?_, rfl, by simp [lastAddr, headAddr], ?_⟩
    · intro k hk
      show k < s.fresh + 1
      rw [List.map_cons, List.mem_cons] at hk
      rcases hk with hk | hk
      · have hk' : k = s.fresh := hk
        exact hk' ▸ Nat.lt_succ_self _
      · simp at hk
    · rw [hheap]
      exact List.Perm.refl _
  | cons e rest =>
    obtain ⟨b, y⟩ := e
    have hh' : s.head = Option.some b := hh
    have hbm : b ∉ rest.map Prod.fst := by
      have h0 := nd
      rw [List.map_cons, List.nodup_cons] at h0
      exact h0.1
    have hgb : heapGet s.heap b =
        Option.some ⟨y, headAddr rest Option.none, Option.none⟩ := by
      rw [heapGet_perm hp hknd b]
      exact heapGet_mkNodes_head b y rest _ _
    have hpf : s.push_front x =
        ⟨Option.some s.fresh, s.tail,
          (s.fresh, ⟨x, Option.some b, Option.none⟩) ::
            heapSet s.heap b ⟨y, headAddr rest Option.none, Option.some s.fresh⟩,
          s.fresh + 1⟩ := by
      simp only [Fourth.List.push_front, hh', hgb]
    rw [hpf]
    refine ⟨?_, ?_, rfl, ?_, ?_⟩
    · simp only [List.map_cons, List.nodup_cons]
      constructor
      · simpa using hfr
      · simpa using nd
    · intro k hk
      simp only [List.map_cons, List.mem_cons] at hk
      show k < s.fresh + 1
      rcases hk with hk | hk
      · have hk' : k = s.fresh := hk
        exact hk' ▸ Nat.lt_succ_self _
      · have hlt : k < s.fresh := bd k (List.mem_cons.mpr hk)
        exact Nat.lt_succ_of_lt hlt
    · rw [ht]
      exact (lastAddr_cons (s.fresh, x) (by simp) Option.none).symm
    · show ((s.fresh, (⟨x, Option.some b, Option.none⟩ : Fourth.Node T)) ::
          heapSet s.heap b ⟨y, headAddr rest Option.none, Option.some s.fresh⟩).Perm
        ((s.fresh, ⟨x, headAddr ((b, y) :: rest) Option.none, Option.none⟩) ::
          mkNodes ((b, y) :: rest) (Option.some s.fresh) Option.none)
      apply List.Perm.cons
      have h2 := hp.map (fun p => if p.1 = b then
        (b, (⟨y, headAddr rest Option.none, Option.some s.fresh⟩ : Fourth.Node T)) else p)
      refine h2.trans ?_
      show (heapSet (mkNodes ((b, y) :: rest) Option.none Option.none) b
        ⟨y, headAddr rest Option.none, Option.some s.fresh⟩).Perm _
      rw [heapSet_mkNodes_head b y rest Option.none (Option.some s.fresh) Option.none hbm]

theorem pop_front_spec {T : Type} {s : Fourth.List T} {c : List (Addr × T)}
    (R : Represents s c) :
    ∃ s' : Fourth.List T,
      s.pop_front = Option.some ((elems c).head?, s') ∧ Represents s' c.tail := by
  obtain ⟨nd, bd, hh, ht, hp⟩ := R
  have hknd : (s.heap.map Prod.fst).Nodup := by
    have kp := hp.map Prod.fst
    rw [mkNodes_fst] at kp
    exact kp.nodup_iff.mpr nd
  cases c with
  | nil =>
    have hh' : s.head = Option.none := hh
    refine ⟨s, ?_, ⟨nd, bd, hh, ht, hp⟩⟩
    simp [Fourth.List.pop_front, hh', elems]
  | cons e rest =>
    obtain ⟨a, x⟩ := e
    have hh' : s.head = Option.some a := hh
    have hnd1 : a ∉ rest.map Prod.fst := by
      have h0 := nd
      rw [List.map_cons, List.nodup_cons] at h0
      exact h0.1
    have hndr : (rest.map Prod.fst).Nodup := by
      have h0 := nd
      rw [List.map_cons, List.nodup_cons] at h0
      exact h0.2
    have hga : heapGet s.heap a =
        Option.some ⟨x, headAddr rest Option.none, Option.none⟩ := by
      rw [heapGet_perm hp hknd a]
      exact heapGet_mkNodes_head a x rest _ _
    have hp1 : (heapSet s.heap a ⟨x, Option.none, Option.none⟩).Perm
        ((a, ⟨x, Option.none, Option.none⟩) ::
          mkNodes rest (Option.some a) Option.none) := by
      have h2 := hp.map (fun p => if p.1 = a then
        (a, (⟨x, Option.none, Option.none⟩ : Fourth.Node T)) else p)
      refine h2.trans ?_
      have h4 : a ∉ (mkNodes rest (Option.some a) Option.none).map Prod.fst := by
        rw [mkNodes_fst]; exact hnd1
      show (heapSet ((a, ⟨x, headAddr rest Option.none, Option.none⟩) ::
          mkNodes rest (Option.some a) Option.none) a
          ⟨x, Option.none, Option.none⟩).Perm _
      rw [heapSet_cons, if_pos rfl, heapSet_not_mem h4]
    cases rest with
    | nil =>
      have hrefs : Fourth.refsTo
          (⟨Option.none, Option.none,
            heapSet s.heap a ⟨x, Option.none, Option.none⟩, s.fresh⟩ : Fourth.List T)
            a = 0 := by
        have hcn := hp1.countP_eq (fun p => p.2.next == Option.some a)
        have hcp := hp1.countP_eq (fun p => p.2.prev == Option.some a)
        simp only [Fourth.refsTo]
        rw [hcn, hcp]
        simp [List.countP_cons, mkNodes]
      refine ⟨⟨Option.none, Option.none,
          heapRemove (heapSet s.heap a ⟨x, Option.none, Option.none⟩) a, s.fresh⟩,
          ?_, ?_⟩
      · simp only [Fourth.List.pop_front, hh', hga, headAddr_nil]
        rw [if_pos hrefs]
        simp [elems]
      · refine ⟨List.nodup_nil, ?_, rfl, rfl, ?_⟩
        · intro k hk
          simp at hk
        · have h5 := hp1.filter (fun p => !(p.1 == a))
          refine h5.trans ?_
          show (heapRemove ((a, (⟨x, Option.none, Option.none⟩ : Fourth.Node T)) ::
            mkNodes [] (Option.some a) Option.none) a).Perm _
          rw [heapRemove_cons, if_pos rfl]
          exact List.Perm.refl _
    | cons f rest2 =>
      obtain ⟨b, y⟩ := f
      have hk1 : ((heapSet s.heap a
          (⟨x, Option.none, Option.none⟩ : Fourth.Node T)).map Prod.fst).Nodup := by
        rw [heapSet_keys]; exact hknd
      have hab : a ≠ b := by
        intro hc
        exact hnd1 (by simp [hc])
      have hgb : heapGet (heapSet s.heap a ⟨x, Option.none, Option.none⟩) b =
          Option.some ⟨y, headAddr rest2 Option.none, Option.some a⟩ := by
        rw [heapGet_perm hp1 hk1 b, heapGet_cons, if_neg hab]
        exact heapGet_mkNodes_head b y rest2 _ _
      have hbm2 : b ∉ rest2.map Prod.fst := by
        have h0 := hndr
        rw [List.map_cons, List.nodup_cons] at h0
        exact h0.1
      have hp2 : (heapSet (heapSet s.heap a ⟨x, Option.none, Option.none⟩) b
            ⟨y, headAddr rest2 Option.none, Option.none⟩).Perm
          ((a, ⟨x, Option.none, Option.none⟩) ::
            mkNodes ((b, y) :: rest2) Option.none Option.none) := by
        have h2 := hp1.map (fun p => if p.1 = b then
          (b, (⟨y, headAddr rest2 Option.none, Option.none⟩ : Fourth.Node T)) else p)
        refine h2.trans ?_
        show (heapSet ((a, (⟨x, Option.none, Option.none⟩ : Fourth.Node T)) ::
            mkNodes ((b, y) :: rest2) (Option.some a) Option.none) b
            ⟨y, headAddr rest2 Option.none, Option.none⟩).Perm _
        rw [heapSet_cons, if_neg hab,
          heapSet_mkNodes_head b y rest2 (Option.some a) Option.none Option.none hbm2]
      have hrefs : Fourth.refsTo
          (⟨Option.some b, s.tail,
            heapSet (heapSet s.heap a ⟨x, Option.none, Option.none⟩) b
              ⟨y, headAddr rest2 Option.none, Option.none⟩, s.fresh⟩ : Fourth.List T)
            a = 0 := by
        have hhne : (Option.some b : Option Addr) ≠ Option.some a := by
          intro hc
          have hba : b = a := by injection hc
          exact hab hba.symm
        have htne : s.tail ≠ Option.some a := by
          rw [ht, lastAddr_cons (a, x) (by simp) Option.none]
          obtain ⟨k, hk, hkeq⟩ := lastAddr_mem
            (show ((b, y) :: rest2) ≠ ([] : List (Addr × T)) by simp) Option.none
          rw [hkeq]
          intro hc
          have hka : k = a := by injection hc
          exact hnd1 (hka ▸ hk)
        have hcn := hp2.countP_eq (fun p => p.2.next == Option.some a)
        have hcp := hp2.countP_eq (fun p => p.2.prev == Option.some a)
        simp only [Fourth.refsTo]
        rw [hcn, hcp, if_neg hhne, if_neg htne, List.countP_cons, List.countP_cons,
          countP_mkNodes_next ((b, y) :: rest2) Option.none Option.none a hnd1 (by simp),
          countP_mkNodes_prev ((b, y) :: rest2) Option.none Option.none a hnd1 (by simp)]
        simp
      refine ⟨⟨Option.some b, s.tail,
          heapRemove (heapSet (heapSet s.heap a ⟨x, Option.none, Option.none⟩) b
            ⟨y, headAddr rest2 Option.none, Option.none⟩) a, s.fresh⟩, ?_, ?_⟩
      · simp only [Fourth.List.pop_front, hh', hga, headAddr_cons, hgb]
        rw [if_pos hrefs]
        simp [elems]
      · refine ⟨hndr, ?_, rfl, ?_, ?_⟩
        · intro k hk
          exact bd k (List.mem_cons_of_mem _ hk)
        · rw [ht]
          exact lastAddr_cons (a, x) (by simp) Option.none
        · have h5 := hp2.filter (fun p => !(p.1 == a))
          refine h5.trans ?_
          have h6 : a ∉ (mkNodes ((b, y) :: rest2)
              Option.none Option.none).map Prod.fst := by
            rw [mkNodes_fst]; exact hnd1
          show (heapRemove ((a, (⟨x, Option.none, Option.none⟩ : Fourth.Node T)) ::
            mkNodes ((b, y) :: rest2) Option.none Option.none) a).Perm
            (mkNodes ((b, y) :: rest2) Option.none Option.none)
          rw [heapRemove_cons, if_pos rfl, heapRemove_not_mem h6]

/-!  ## Reversal symmetry: `push_back`/`pop_back` are the mirror images of
`push_front`/`pop_front` -/

theorem node_rev_rev {T : Type} (n : Fourth.Node T) : n.rev.rev = n := rfl

theorem heap_map_rev_rev {T : Type} (h : Heap (Fourth.Node T)) :
    (h.map (fun p => (p.1, p.2.rev))).map (fun p => (p.1, p.2.rev)) = h := by
  induction h with
  | nil => rfl
  | cons e t ih => simp only [List.map_cons, ih, node_rev_rev]

theorem node_rev_mk {T : Type} (el : T) (nx pv : Option Addr) :
    (⟨el, nx, pv⟩ : Fourth.Node T).rev = ⟨el, pv, nx⟩ := rfl

theorem list_rev_rev {T : Type} (s : Fourth.List T) : s.rev.rev = s := by
  obtain ⟨hd, tl, hp0, fr⟩ := s
  simp only [Fourth.List.rev, heap_map_rev_rev]

theorem heapGet_map_rev {T : Type} (h : Heap (Fourth.Node T)) (a : Addr) :
    heapGet (h.map (fun p => (p.1, p.2.rev))) a =
      (heapGet h a).map Fourth.Node.rev := by
  induction h with
  | nil => rfl
  | cons e t ih =>
    obtain ⟨b, n⟩ := e
    show (if b = a then _ else _) = _
    by_cases hc : b = a
    · rw [if_pos hc, heapGet_cons, if_pos hc]
      rfl
    · rw [if_neg hc, heapGet_cons, if_neg hc]
      exact ih

theorem heapSet_map_rev {T : Type} (h : Heap (Fourth.Node T)) (a : Addr)
    (m : Fourth.Node T) :
    (heapSet h a m).map (fun p => (p.1, p.2.rev)) =
      heapSet (h.map (fun p => (p.1, p.2.rev))) a m.rev := by
  induction h with
  | nil => rfl
  | cons e t ih =>
    obtain ⟨b, n⟩ := e
    by_cases hc : b = a
    · simp only [heapSet_cons, if_pos hc, List.map_cons, ih]
    · simp only [heapSet_cons, if_neg hc, List.map_cons, ih]

theorem heapSet_map_rev' {T : Type} (h : Heap (Fourth.Node T)) (a : Addr)
    (el : T) (nx pv : Option Addr) :
    heapSet (h.map (fun p => (p.1, p.2.rev))) a ⟨el, nx, pv⟩ =
      (heapSet h a ⟨el, pv, nx⟩).map (fun p => (p.1, p.2.rev)) :=
  (heapSet_map_rev h a ⟨el, pv, nx⟩).symm

theorem heapRemove_map_rev {T : Type} (h : Heap (Fourth.Node T)) (a : Addr) :
    (heapRemove h a).map (fun p => (p.1, p.2.rev)) =
      heapRemove (h.map (fun p => (p.1, p.2.rev))) a := by
  induction h with
  | nil => rfl
  | cons e t ih =>
    show _ = heapRemove ((e.1, e.2.rev) :: t.map _) a
    rw [heapRemove_cons, heapRemove_cons]
    by_cases hc : e.1 = a
    · rw [if_pos hc, if_pos hc, ih]
    · rw [if_neg hc, if_neg hc, List.map_cons, ih]

theorem refsTo_flip {T : Type} (A B : Option Addr) (H : Heap (Fourth.Node T))
    (f a : Addr) :
    Fourth.refsTo
        (⟨A, B, H.map (fun p => (p.1, p.2.rev)), f⟩ : Fourth.List T) a =
      Fourth.refsTo (⟨B, A, H, f⟩ : Fourth.List T) a := by
  simp only [Fourth.refsTo, List.countP_map]
  have h1 : ((fun p : Addr × Fourth.Node T => p.2.next == Option.some a) ∘
      (fun p : Addr × Fourth.Node T => (p.1, p.2.rev))) =
      (fun p : Addr × Fourth.Node T => p.2.prev == Option.some a) := rfl
  have h2 : ((fun p : Addr × Fourth.Node T => p.2.prev == Option.some a) ∘
      (fun p : Addr × Fourth.Node T => (p.1, p.2.rev))) =
      (fun p : Addr × Fourth.Node T => p.2.next == Option.some a) := rfl
  rw [h1, h2]
  ring

theorem rev_push_front {T : Type} (s : Fourth.List T) (x : T) :
    s.rev.push_front x = (s.push_back x).rev := by
  obtain ⟨hd, tl, hp0, fr⟩ := s
  cases tl with
  | none =>
    simp [Fourth.List.rev, Fourth.List.push_front, Fourth.List.push_back,
      node_rev_mk]
  | some oldA =>
    cases hg : heapGet hp0 oldA with
    | none =>
      have hgL : heapGet (hp0.map (fun p => (p.1, p.2.rev))) oldA = Option.none := by
        rw [heapGet_map_rev, hg]; rfl
      simp [Fourth.List.rev, Fourth.List.push_front, Fourth.List.push_back,
        hg, hgL]
    | some n =>
      obtain ⟨el, nx, pv⟩ := n
      have hgL : heapGet (hp0.map (fun p => (p.1, p.2.rev))) oldA =
          Option.some ⟨el, pv, nx⟩ := by
        rw [heapGet_map_rev, hg]; rfl
      simp [Fourth.List.rev, Fourth.List.push_front, Fourth.List.push_back,
        hg, hgL, heapSet_map_rev', node_rev_mk]

theorem rev_pop_front {T : Type} (s : Fourth.List T) :
    s.rev.pop_front = (s.pop_back).map (fun r => (r.1, r.2.rev)) := by
  obtain ⟨hd, tl, hp0, fr⟩ := s
  cases tl with
  | none => rfl
  | some oldA =>
    cases hg : heapGet hp0 oldA with
    | none =>
      have hgL : heapGet (hp0.map (fun p => (p.1, p.2.rev))) oldA = Option.none := by
        rw [heapGet_map_rev, hg]; rfl
      simp [Fourth.List.rev, Fourth.List.pop_front, Fourth.List.pop_back,
        hg, hgL]
    | some n =>
      obtain ⟨el, nx, pv⟩ := n
      have hgL : heapGet (hp0.map (fun p => (p.1, p.2.rev))) oldA =
          Option.some ⟨el, pv, nx⟩ := by
        rw [heapGet_map_rev, hg]; rfl
      cases pv with
      | none =>
        have hflip := refsTo_flip Option.none Option.none
          (heapSet hp0 oldA ⟨el, nx, Option.none⟩) fr oldA
        by_cases hc : Fourth.refsTo
            (⟨Option.none, Option.none,
              heapSet hp0 oldA ⟨el, nx, Option.none⟩, fr⟩ : Fourth.List T) oldA = 0
        · have hcL : Fourth.refsTo
              (⟨Option.none, Option.none,
                (heapSet hp0 oldA ⟨el, nx, Option.none⟩).map (fun p => (p.1, p.2.rev)),
                fr⟩ : Fourth.List T) oldA = 0 := by
            rw [hflip]; exact hc
          simp [Fourth.List.rev, Fourth.List.pop_front, Fourth.List.pop_back,
            hg, hgL, heapSet_map_rev', heapRemove_map_rev, hc, hcL]
        · have hcL : ¬ Fourth.refsTo
              (⟨Option.none, Option.none,
                (heapSet hp0 oldA ⟨el, nx, Option.none⟩).map (fun p => (p.1, p.2.rev)),
                fr⟩ : Fourth.List T) oldA = 0 := by
            rw [hflip]; exact hc
          simp [Fourth.List.rev, Fourth.List.pop_front, Fourth.List.pop_back,
            hg, hgL, heapSet_map_rev', hc, hcL]
      | some newA =>
        cases hg2 : heapGet (heapSet hp0 oldA ⟨el, nx, Option.none⟩) newA with
        | none =>
          have hg2L : heapGet
              ((heapSet hp0 oldA ⟨el, nx, Option.none⟩).map (fun p => (p.1, p.2.rev)))
              newA = Option.none := by
            rw [heapGet_map_rev, hg2]; rfl
          simp [Fourth.List.rev, Fourth.List.pop_front, Fourth.List.pop_back,
            hg, hgL, heapSet_map_rev', hg2, hg2L]
        | some m =>
          obtain ⟨el2, nx2, pv2⟩ := m
          have hg2L : heapGet
              ((heapSet hp0 oldA ⟨el, nx, Option.none⟩).map (fun p => (p.1, p.2.rev)))
              newA = Option.some ⟨el2, pv2, nx2⟩ := by
            rw [heapGet_map_rev, hg2]; rfl
          have hflip := refsTo_flip (Option.some newA) hd
            (heapSet (heapSet hp0 oldA ⟨el, nx, Option.none⟩) newA
              ⟨el2, Option.none, pv2⟩) fr oldA
          by_cases hc : Fourth.refsTo
              (⟨hd, Option.some newA,
                heapSet (heapSet hp0 oldA ⟨el, nx, Option.none⟩) newA
                  ⟨el2, Option.none, pv2⟩, fr⟩ : Fourth.List T) oldA = 0
          · have hcL : Fourth.refsTo
                (⟨Option.some newA, hd,
                  (heapSet (heapSet hp0 oldA ⟨el, nx, Option.none⟩) newA
                    ⟨el2, Option.none, pv2⟩).map (fun p => (p.1, p.2.rev)),
                  fr⟩ : Fourth.List T) oldA = 0 := by
              rw [hflip]; exact hc
            simp [Fourth.List.rev, Fourth.List.pop_front, Fourth.List.pop_back,
              hg, hgL, heapSet_map_rev', hg2, hg2L, heapRemove_map_rev, hc, hcL]
          · have hcL : ¬ Fourth.refsTo
                (⟨Option.some newA, hd,
                  (heapSet (heapSet hp0 oldA ⟨el, nx, Option.none⟩) newA
                    ⟨el2, Option.none, pv2⟩).map (fun p => (p.1, p.2.rev)),
                  fr⟩ : Fourth.List T) oldA = 0 := by
              rw [hflip]; exact hc
            simp [Fourth.List.rev, Fourth.List.pop_front, Fourth.List.pop_back,
              hg, hgL, heapSet_map_rev', hg2, hg2L, hc, hcL]

theorem lastAddr_ne_nil {T : Type} {c : List (Addr × T)} (h : c ≠ [])
    (q q' : Option Addr) : lastAddr c q = lastAddr c q' := by
  rw [lastAddr, lastAddr]
  exact headAddr_ne_nil (by simpa using h) q q'

theorem lastAddr_reverse {T : Type} (c : List (Addr × T)) (q : Option Addr) :
    lastAddr c.reverse q = headAddr c q := by
  rw [lastAddr, List.reverse_reverse]

theorem mkNodes_append_one {T : Type} :
    ∀ (d : List (Addr × T)) (a : Addr) (x : T) (q p : Option Addr),
      mkNodes (d ++ [(a, x)]) q p =
        mkNodes d q (Option.some a) ++ [(a, ⟨x, p, lastAddr d q⟩)] := by
  intro d
  induction d with
  | nil => intro a x q p; rfl
  | cons e d ih =>
    obtain ⟨b, y⟩ := e
    intro a x q p
    show (b, (⟨y, headAddr (d ++ [(a, x)]) p, q⟩ : Fourth.Node T)) ::
        mkNodes (d ++ [(a, x)]) (Option.some b) p =
      (b, ⟨y, headAddr d (Option.some a), q⟩) ::
        (mkNodes d (Option.some b) (Option.some a) ++
          [(a, ⟨x, p, lastAddr ((b, y) :: d) q⟩)])
    rw [ih a x (Option.some b) p]
    cases d with
    | nil => simp [headAddr, lastAddr]
    | cons f d2 =>
      obtain ⟨g, z⟩ := f
      rw [List.cons_append, headAddr_cons, headAddr_cons,
        lastAddr_cons (b, y) (by simp) q,
        lastAddr_ne_nil (by simp) (Option.some b) q]

theorem mkNodes_rev {T : Type} :
    ∀ (c : List (Addr × T)) (p q : Option Addr),
      mkNodes c.reverse q p =
        ((mkNodes c p q).map (fun e => (e.1, e.2.rev))).reverse := by
  intro c
  induction c with
  | nil => intro p q; rfl
  | cons e c ih =>
    obtain ⟨a, x⟩ := e
    intro p q
    rw [List.reverse_cons, mkNodes_append_one c.reverse a x q p,
      ih (Option.some a) q, lastAddr_reverse]
    show _ = (((a, (⟨x, headAddr c q, p⟩ : Fourth.Node T)) ::
        mkNodes c (Option.some a) q).map (fun e => (e.1, e.2.rev))).reverse
    rw [List.map_cons, List.reverse_cons]
    rfl

theorem reverse_tail_reverse {α : Type} (l : List α) :
    l.reverse.tail.reverse = l.dropLast := by
  induction l using List.reverseRecOn with
  | nil => rfl
  | append_singleton l a ih => simp

theorem Represents_rev {T : Type} {s : Fourth.List T} {c : List (Addr × T)}
    (R : Represents s c) : Represents s.rev c.reverse := by
  obtain ⟨nd, bd, hh, ht, hp⟩ := R
  refine ⟨?_, ?_, ?_, ?_, ?_⟩
  · rw [List.map_reverse]
    exact List.nodup_reverse.mpr nd
  · intro a ha
    apply bd
    rw [List.map_reverse, List.mem_reverse] at ha
    exact ha
  · show s.tail = headAddr c.reverse Option.none
    rw [ht]
    rfl
  · show s.head = lastAddr c.reverse Option.none
    rw [hh, lastAddr_reverse]
  · show (s.heap.map _).Perm (mkNodes c.reverse Option.none Option.none)
    rw [mkNodes_rev]
    exact (hp.map _).trans (List.reverse_perm _).symm

theorem push_back_spec {T : Type} {s : Fourth.List T} {c : List (Addr × T)}
    (R : Represents s c) (x : T) :
    Represents (s.push_back x) (c ++ [(s.fresh, x)]) := by
  have h1 := push_front_spec (Represents_rev R) x
  have h2 := Represents_rev h1
  rw [rev_push_front, list_rev_rev] at h2
  have h3 : ((s.rev.fresh, x) :: c.reverse).reverse = c ++ [(s.fresh, x)] := by
    rw [List.reverse_cons, List.reverse_reverse]
    rfl
  rw [h3] at h2
  exact h2

theorem pop_back_spec {T : Type} {s : Fourth.List T} {c : List (Addr × T)}
    (R : Represents s c) :
    ∃ s' : Fourth.List T,
      s.pop_back = Option.some ((elems c).getLast?, s') ∧
        Represents s' c.dropLast := by
  obtain ⟨t, ht1, ht2⟩ := pop_front_spec (Represents_rev R)
  rw [rev_pop_front] at ht1
  have hval : (elems c.reverse).head? = (elems c).getLast? := by
    show (c.reverse.map Prod.snd).head? = _
    rw [List.map_reverse, List.head?_reverse]
    rfl
  cases hpb : s.pop_back with
  | none =>
    rw [hpb] at ht1
    simp at ht1
  | some r =>
    obtain ⟨v, u⟩ := r
    rw [hpb] at ht1
    have ht1' : (Option.some (v, u.rev) : Option (Option T × Fourth.List T)) =
        Option.some ((elems c.reverse).head?, t) := ht1
    have hpair := Option.some.inj ht1'
    have hv : v = (elems c.reverse).head? := congrArg Prod.fst hpair
    have hu : u.rev = t := congrArg Prod.snd hpair
    refine ⟨u, ?_, ?_⟩
    · rw [hv, hval]
    · have h4 := Represents_rev ht2
      rw [← hu, list_rev_rev, reverse_tail_reverse] at h4
      exact h4

theorem elems_tail {T : Type} (c : List (Addr × T)) :
    elems c.tail = (elems c).tail := by
  cases c <;> rfl

theorem elems_dropLast {T : Type} :
    ∀ c : List (Addr × T), elems c.dropLast = (elems c).dropLast := by
  intro c
  induction c with
  | nil => rfl
  | cons e c ih =>
    cases c with
    | nil => rfl
    | cons f c2 =>
      show elems ((e :: f :: c2).dropLast) = _
      rw [List.dropLast_cons₂]
      show Prod.snd e :: elems ((f :: c2).dropLast) = _
      rw [ih]
      rfl

theorem run_spec {T : Type} {s : Fourth.List T} {c : List (Addr × T)}
    (R : Represents s c) (op : Fourth.Op T) :
    ∃ s' c', runOp s op = Option.some s' ∧ Represents s' c' := by
  cases op with
  | push_front x =>
    exact ⟨s.push_front x, (s.fresh, x) :: c, rfl, push_front_spec R x⟩
  | push_back x =>
    exact ⟨s.push_back x, c ++ [(s.fresh, x)], rfl, push_back_spec R x⟩
  | pop_front =>
    obtain ⟨s', h1, h2⟩ := pop_front_spec R
    refine ⟨s', c.tail, ?_, h2⟩
    show (s.pop_front).map Prod.snd = _
    rw [h1]
    rfl
  | pop_back =>
    obtain ⟨s', h1, h2⟩ := pop_back_spec R
    refine ⟨s', c.dropLast, ?_, h2⟩
    show (s.pop_back).map Prod.snd = _
    rw [h1]
    rfl

theorem runOps_spec {T : Type} :
    ∀ (ops : List (Fourth.Op T)) (s : Fourth.List T) (c : List (Addr × T)),
      Represents s c →
      ∃ s' c', runOps s ops = Option.some s' ∧ Represents s' c' := by
  intro ops
  induction ops with
  | nil => intro s c R; exact ⟨s, c, rfl, R⟩
  | cons op ops ih =>
    intro s c R
    obtain ⟨s1, c1, h1, R1⟩ := run_spec R op
    obtain ⟨s2, c2, h2, R2⟩ := ih s1 c1 R1
    refine ⟨s2, c2, ?_, R2⟩
    show (runOp s op).bind _ = _
    rw [h1]
    exact h2

theorem drain_spec {T : Type} :
    ∀ (pulls : List Bool) (s : Fourth.List T) (c : List (Addr × T)),
      Represents s c →
      ∃ s', drainDeque s pulls =
          Option.some (drainModel (elems c) pulls, s') ∧
        Represents s' (chainDrain c pulls) := by
  intro pulls
  induction pulls with
  | nil => intro s c R; exact ⟨s, rfl, R⟩
  | cons pull pulls ih =>
    intro s c R
    cases pull with
    | true =>
      obtain ⟨s1, h1, R1⟩ := pop_front_spec R
      obtain ⟨s2, h2, R2⟩ := ih s1 c.tail R1
      refine ⟨s2, ?_, R2⟩
      simp [drainDeque, h1, h2, elems_tail, drainModel]
    | false =>
      obtain ⟨s1, h1, R1⟩ := pop_back_spec R
      obtain ⟨s2, h2, R2⟩ := ih s1 c.dropLast R1
      refine ⟨s2, ?_, R2⟩
      simp [drainDeque, h1, h2, elems_dropLast, drainModel]

theorem drainModel_perm {T : Type} :
    ∀ (pulls : List Bool) (l : List T), l.length ≤ pulls.length →
      ((drainModel l pulls).reduceOption).Perm l := by
  intro pulls
  induction pulls with
  | nil =>
    intro l hl
    have : l = [] := List.eq_nil_of_length_eq_zero (Nat.le_zero.mp hl)
    subst this
    exact List.Perm.refl _
  | cons pull pulls ih =>
    intro l hl
    cases pull with
    | true =>
      cases l with
      | nil =>
        show ((Option.none :: drainModel [] pulls).reduceOption).Perm []
        rw [List.reduceOption_cons_of_none]
        exact ih [] (by simp)
      | cons x t =>
        show ((Option.some x :: drainModel t pulls).reduceOption).Perm (x :: t)
        rw [List.reduceOption_cons_of_some]
        exact (ih t (by simpa using Nat.le_of_succ_le_succ (by simpa using hl))).cons x
    | false =>
      rcases List.eq_nil_or_concat l with rfl | ⟨t, a, rfl⟩
      · show ((Option.none :: drainModel [] pulls).reduceOption).Perm []
        rw [List.reduceOption_cons_of_none]
        exact ih [] (by simp)
      · simp only [List.concat_eq_append] at hl ⊢
        show (((t ++ [a]).getLast? ::
            drainModel ((t ++ [a]).dropLast) pulls).reduceOption).Perm (t ++ [a])
        rw [List.getLast?_concat, List.dropLast_concat, List.reduceOption_cons_of_some]
        have hlen : t.length ≤ pulls.length := by
          have := hl
          simp only [List.length_append, List.length_cons, List.length_nil] at this
          omega
        have hperm := (ih t hlen).cons a
        refine hperm.trans ?_
        have hmid := @List.perm_middle T a t []
        simpa using hmid.symm

theorem drainModel_replicate {T : Type} :
    ∀ l : List T,
      drainModel l (List.replicate (l.length + 1) true) =
        l.map Option.some ++ [Option.none] := by
  intro l
  induction l with
  | nil => rfl
  | cons x t ih =>
    show drainModel (x :: t) (true :: List.replicate (t.length + 1) true) = _
    show Option.some x :: drainModel t (List.replicate (t.length + 1) true) = _
    rw [ih]
    rfl

theorem chainDrain_replicate {T : Type} :
    ∀ c : List (Addr × T),
      chainDrain c (List.replicate (c.length + 1) true) = [] := by
  intro c
  induction c with
  | nil => rfl
  | cons e c ih =>
    show chainDrain (e :: c) (true :: List.replicate (c.length + 1) true) = []
    show chainDrain c (List.replicate (c.length + 1) true) = []
    exact ih

/-!  ## Analysis of the `third.rs` destructor loop -/

theorem mkChain_fst {T : Type} :
    ∀ c : List (Addr × T), (ThirdRc.mkChain c).map Prod.fst = c.map Prod.fst := by
  intro c
  induction c with
  | nil => rfl
  | cons e c ih =>
    obtain ⟨a, x⟩ := e
    show a :: (ThirdRc.mkChain c).map Prod.fst = _
    rw [ih]
    rfl

theorem mkChain_length {T : Type} :
    ∀ c : List (Addr × T), (ThirdRc.mkChain c).length = c.length := by
  intro c
  induction c with
  | nil => rfl
  | cons e c ih =>
    obtain ⟨a, x⟩ := e
    show (ThirdRc.mkChain c).length + 1 = _
    rw [ih]
    rfl

theorem heapGet_mkChain {T : Type} :
    ∀ (c1 : List (Addr × T)) (b : Addr) (y : T) (c2 : List (Addr × T)),
      b ∉ c1.map Prod.fst →
      heapGet (ThirdRc.mkChain (c1 ++ (b, y) :: c2)) b =
        Option.some ⟨y, ThirdRc.chainHead c2⟩ := by
  intro c1
  induction c1 with
  | nil =>
    intro b y c2 _
    show (if b = b then _ else _) = _
    rw [if_pos rfl]
  | cons e c1 ih =>
    obtain ⟨g, z⟩ := e
    intro b y c2 hb
    rw [List.map_cons, List.mem_cons] at hb
    push_neg at hb
    show (if g = b then _ else _) = _
    rw [if_neg (fun hc => hb.1 hc.symm)]
    exact ih b y c2 hb.2

theorem countNextTo_not_mem {T : Type} :
    ∀ (c : List (Addr × T)) (t : Addr), t ∉ c.map Prod.fst →
      ThirdRc.countNextTo (ThirdRc.mkChain c) t = 0 := by
  intro c
  induction c with
  | nil => intro t _; rfl
  | cons e c ih =>
    obtain ⟨a, x⟩ := e
    intro t ht
    rw [List.map_cons, List.mem_cons] at ht
    push_neg at ht
    show List.countP _ ((a, ⟨x, ThirdRc.chainHead c⟩) :: ThirdRc.mkChain c) = 0
    have ih' : List.countP (fun p => p.2.next == Option.some t)
        (ThirdRc.mkChain c) = 0 := ih t ht.2
    rw [List.countP_cons, ih']
    have hv : ThirdRc.chainHead c ≠ Option.some t := by
      cases c with
      | nil => simp [ThirdRc.chainHead]
      | cons f c2 =>
        intro hc
        apply ht.2
        have hf : f.1 = t := by
          simp only [ThirdRc.chainHead, List.head?_cons, Option.map_some] at hc
          exact Option.some.inj hc
        simp [← hf]
    simp [hv]

theorem countNextTo_pos {T : Type} :
    ∀ (pre : List (Addr × T)) (b : Addr) (y : T) (d : List (Addr × T)),
      pre ≠ [] →
      1 ≤ ThirdRc.countNextTo (ThirdRc.mkChain (pre ++ (b, y) :: d)) b := by
  intro pre
  induction pre with
  | nil => intro b y d h; exact absurd rfl h
  | cons e pre ih =>
    obtain ⟨g, z⟩ := e
    intro b y d _
    show 1 ≤ List.countP _
      ((g, ⟨z, ThirdRc.chainHead (pre ++ (b, y) :: d)⟩) ::
        ThirdRc.mkChain (pre ++ (b, y) :: d))
    rw [List.countP_cons]
    cases pre with
    | nil =>
      have hch : ThirdRc.chainHead ((b, y) :: d) = Option.some b := by
        simp [ThirdRc.chainHead]
      simp [hch]
    | cons f pre2 =>
      have h1 := ih b y d (by simp)
      have h1' : 1 ≤ List.countP
          (fun p => p.2.next == Option.some b)
          (ThirdRc.mkChain ((f :: pre2) ++ (b, y) :: d)) := h1
      omega

theorem dropLoop_stuck {T : Type} :
    ∀ (d pre : List (Addr × T)) (extRefs : List Addr) (fuel s0 : Nat),
      pre ≠ [] → ((pre ++ d).map Prod.fst).Nodup → d.length ≤ fuel →
      ThirdRc.dropLoop fuel (ThirdRc.mkChain (pre ++ d)) extRefs
        (ThirdRc.chainHead d) s0 = (ThirdRc.mkChain (pre ++ d), s0 + d.length) := by
  intro d
  induction d with
  | nil =>
    intro pre extRefs fuel s0 _ _ _
    cases fuel with
    | zero => rfl
    | succ f => rfl
  | cons e d ih =>
    obtain ⟨b, y⟩ := e
    intro pre extRefs fuel s0 hpre hnd hfuel
    cases fuel with
    | zero => exact absurd hfuel (by simp)
    | succ f =>
      have hbpre : b ∉ pre.map Prod.fst := by
        intro hb
        have h0 := hnd
        rw [List.map_append] at h0
        have := (List.nodup_append.mp h0).2.2
        exact this hb (by simp)
      have hg := heapGet_mkChain pre b y d hbpre
      have hch : ThirdRc.chainHead ((b, y) :: d) = Option.some b := by
        simp [ThirdRc.chainHead]
      have hcnt := countNextTo_pos pre b y d hpre
      have hrc : ¬ (extRefs.count b +
          ThirdRc.countNextTo (ThirdRc.mkChain (pre ++ (b, y) :: d)) b +
          (if ThirdRc.chainHead d = Option.some b then 1 else 0) = 0) := by
        omega
      show ThirdRc.dropLoop (f + 1) (ThirdRc.mkChain (pre ++ (b, y) :: d)) extRefs
        (ThirdRc.chainHead ((b, y) :: d)) s0 = _
      rw [hch]
      simp only [ThirdRc.dropLoop, hg]
      rw [if_neg hrc]
      have hmv : pre ++ (b, y) :: d = (pre ++ [(b, y)]) ++ d := by
        simp
      rw [hmv] at hnd ⊢
      rw [ih (pre ++ [(b, y)]) extRefs f (s0 + 1) (by simp) hnd
        (by simpa using Nat.le_of_succ_le_succ (by simpa using hfuel))]
      have : s0 + 1 + d.length = s0 + (d.length + 1) := by omega
      rw [this]
      rfl

theorem dropLoop_chain {T : Type} :
    ∀ (c : List (Addr × T)) (extRefs : List Addr) (fuel s0 : Nat),
      (c.map Prod.fst).Nodup → c.length ≤ fuel →
      ThirdRc.dropLoop fuel (ThirdRc.mkChain c) extRefs (ThirdRc.chainHead c) s0 =
        (ThirdRc.mkChain (c.drop (ThirdRc.sharedIdx c extRefs)), s0 + c.length) := by
  intro c
  induction c with
  | nil =>
    intro extRefs fuel s0 _ _
    cases fuel with
    | zero => rfl
    | succ f => rfl
  | cons e c ih =>
    obtain ⟨a, x⟩ := e
    intro extRefs fuel s0 hnd hfuel
    cases fuel with
    | zero => exact absurd hfuel (by simp)
    | succ f =>
      have hnd' : (c.map Prod.fst).Nodup := by
        rw [List.map_cons, List.nodup_cons] at hnd; exact hnd.2
      have hna : a ∉ c.map Prod.fst := by
        rw [List.map_cons, List.nodup_cons] at hnd; exact hnd.1
      have hch : ThirdRc.chainHead ((a, x) :: c) = Option.some a := by
        simp [ThirdRc.chainHead]
      have hg : heapGet (ThirdRc.mkChain ((a, x) :: c)) a =
          Option.some ⟨x, ThirdRc.chainHead c⟩ := by
        show (if a = a then _ else _) = _
        rw [if_pos rfl]
      have hnxt : ThirdRc.chainHead c ≠ Option.some a := by
        cases c with
        | nil => simp [ThirdRc.chainHead]
        | cons g c2 =>
          intro hcc
          apply hna
          have hga : g.1 = a := by
            simp only [ThirdRc.chainHead, List.head?_cons, Option.map_some] at hcc
            exact Option.some.inj hcc
          simp [← hga]
      have hcn : ThirdRc.countNextTo (ThirdRc.mkChain ((a, x) :: c)) a = 0 := by
        show List.countP _ ((a, ⟨x, ThirdRc.chainHead c⟩) :: ThirdRc.mkChain c) = 0
        have h1 : List.countP (fun p => p.2.next == Option.some a)
            (ThirdRc.mkChain c) = 0 := countNextTo_not_mem c a hna
        rw [List.countP_cons, h1]
        simp [hnxt]
      show ThirdRc.dropLoop (f + 1) (ThirdRc.mkChain ((a, x) :: c)) extRefs
        (ThirdRc.chainHead ((a, x) :: c)) s0 = _
      rw [hch]
      simp only [ThirdRc.dropLoop, hg]
      by_cases hmem : a ∈ extRefs
      · have hpos : 0 < extRefs.count a := List.count_pos_iff.mpr hmem
        have hrc : ¬ (extRefs.count a +
            ThirdRc.countNextTo (ThirdRc.mkChain ((a, x) :: c)) a +
            (if ThirdRc.chainHead c = Option.some a then 1 else 0) = 0) := by
          omega
        rw [if_neg hrc]
        have h2 := dropLoop_stuck c [(a, x)] extRefs f (s0 + 1) (by simp)
          (by simpa using hnd)
          (by simpa using Nat.le_of_succ_le_succ hfuel)
        simp only [List.singleton_append] at h2
        rw [h2]
        have hsi : ThirdRc.sharedIdx ((a, x) :: c) extRefs = 0 := by
          simp [ThirdRc.sharedIdx, List.findIdx_cons, hmem]
        rw [hsi]
        simp only [List.drop_zero, List.length_cons]
        congr 1
        omega
      · have hcount : extRefs.count a = 0 := List.count_eq_zero.mpr hmem
        have hrc : extRefs.count a +
            ThirdRc.countNextTo (ThirdRc.mkChain ((a, x) :: c)) a +
            (if ThirdRc.chainHead c = Option.some a then 1 else 0) = 0 := by
          rw [hcount, hcn, if_neg hnxt]
        rw [if_pos hrc]
        have hrem : heapRemove (ThirdRc.mkChain ((a, x) :: c)) a =
            ThirdRc.mkChain c := by
          show heapRemove ((a, ⟨x, ThirdRc.chainHead c⟩) :: ThirdRc.mkChain c) a = _
          rw [heapRemove_cons, if_pos rfl,
            heapRemove_not_mem (by rw [mkChain_fst]; exact hna)]
        rw [hrem, ih extRefs f (s0 + 1) hnd' (Nat.le_of_succ_le_succ hfuel)]
        have hsi : ThirdRc.sharedIdx ((a, x) :: c) extRefs =
            ThirdRc.sharedIdx c extRefs + 1 := by
          simp [ThirdRc.sharedIdx, List.findIdx_cons, hmem]
        rw [hsi]
        simp only [List.drop_succ_cons, List.length_cons]
        congr 1
        omega

/-- Complete behaviour of the `third.rs` destructor on a well-formed chain:
it traverses the whole chain (`c.length` loop iterations), and the final
heap keeps exactly the suffix from the first externally-held node on. -/
theorem dropList_chain {T : Type} (c : List (Addr × T)) (extRefs : List Addr)
    (hnd : (c.map Prod.fst).Nodup) :
    ThirdRc.dropList (ThirdRc.mkChain c) extRefs (ThirdRc.chainHead c) =
      (ThirdRc.mkChain (c.drop (ThirdRc.sharedIdx c extRefs)), c.length) := by
  rw [ThirdRc.dropList, mkChain_length]
  have h := dropLoop_chain c extRefs c.length 0 hnd (le_refl _)
  simpa using h

theorem headAddr_eq_none_iff {T : Type} (c : List (Addr × T)) :
    headAddr c Option.none = Option.none ↔ c = [] := by
  cases c with
  | nil => simp [headAddr]
  | cons e t =>
    obtain ⟨a, x⟩ := e
    simp [headAddr]

theorem lastAddr_eq_none_iff {T : Type} (c : List (Addr × T)) :
    lastAddr c Option.none = Option.none ↔ c = [] := by
  rw [lastAddr, headAddr_eq_none_iff, List.reverse_eq_nil_iff]

theorem heapGet_heapSet {α : Type} :
    ∀ {h : List (Addr × α)} {a : Addr} {n : α} (m : α),
      heapGet h a = Option.some n → heapGet (heapSet h a m) a = Option.some m := by
  intro h
  induction h with
  | nil =>
    intro a n m hc
    simp [heapGet] at hc
  | cons e t ih =>
    intro a n m hc
    obtain ⟨b, w⟩ := e
    rw [heapGet_cons] at hc
    rw [heapSet_cons]
    by_cases hb : b = a
    · rw [if_pos hb, heapGet_cons, if_pos rfl]
    · rw [if_neg hb] at hc
      rw [if_neg hb, heapGet_cons, if_neg hb]
      exact ih m hc

/-- C2: for every well-formed deque and every interleaving of front pulls
(`Iterator::next` = `pop_front`, `true`) and back pulls
(`DoubleEndedIterator::next_back` = `pop_back`, `false`) on the consuming
iterator, the yields follow the double-ended list model — front pulls take
the current front, back pulls the current back, so the two cursors meet in
the middle — and with at least as many pulls as elements, every element is
yielded exactly once (the present yields are a permutation of the
contents); in particular on the deque with front-to-back contents
`[3, 2, 1]` (front-pushed), pulling front, back, front yields 3, 1, 2 and
a subsequent back pull yields absent. -/
theorem C2_into_iter_double_ended :
    (∀ (s : Fourth.List Int) (c : List (Addr × Int)) (pulls : List Bool),
      Represents s c →
      ∃ s', drainDeque s pulls =
        Option.some (drainModel (elems c) pulls, s')) ∧
    (∀ (l : List Int) (pulls : List Bool), l.length ≤ pulls.length →
      ((drainModel l pulls).reduceOption).Perm l) ∧
    ((drainDeque exDeque [true, false, true, false]).map Prod.fst =
      Option.some [Option.some 3, Option.some 1, Option.some 2, Option.none]) := by
  refine ⟨?_, ?_, ?_⟩
  · intro s c pulls R
    obtain ⟨s', h1, _⟩ := drain_spec pulls s c R
    exact ⟨s', h1⟩
  · intro l pulls h
    exact drainModel_perm pulls l h
  · decide

theorem C2_witness :
    (∃ s', drainDeque exDeque [true, false, true, false] =
      Option.some (drainModel (elems exChainD) [true, false, true, false], s')) ∧
    ((drainModel ([3, 2, 1] : List Int) [true, false, true]).reduceOption).Perm
      [3, 2, 1] :=
  ⟨C2_into_iter_double_ended.1 exDeque exChainD [true, false, true, false]
    ⟨by decide, by decide, rfl, rfl, List.Perm.refl _⟩,
   C2_into_iter_double_ended.2.1 [3, 2, 1] [true, false, true] (by decide)⟩

/-- C4: popping an ExclusiveList, a GenericExclusiveList or an
InteriorMutableDeque in the empty state returns absent and leaves the
container unchanged, so any number of repeated pops keeps yielding absent
and never fails (for the deque, `pop_front` and `pop_back` return
`Some(None, unchanged)` — no panic). -/
theorem C4_pop_empty :
    (∀ l : First.List, l.head = First.Link.Empty →
      ∀ n : Nat, popN First.List.pop l n = (List.replicate n Option.none, l)) ∧
    (∀ (T : Type) (l : Second.List T), l.head = Second.Link.none →
      ∀ n : Nat, popN Second.List.pop l n = (List.replicate n Option.none, l)) ∧
    (∀ (T : Type) (s : Fourth.List T),
      s.head = Option.none → s.tail = Option.none →
      s.pop_front = Option.some (Option.none, s) ∧
      s.pop_back = Option.some (Option.none, s) ∧
      ∀ n : Nat, drainDeque s (List.replicate n true) =
        Option.some (List.replicate n Option.none, s)) := by
  refine ⟨popN_empty_first, fun T l h => popN_empty_second l h, ?_⟩
  intro T s hh ht
  have h1 : s.pop_front = Option.some (Option.none, s) := by
    simp [Fourth.List.pop_front, hh]
  have h2 : s.pop_back = Option.some (Option.none, s) := by
    simp [Fourth.List.pop_back, ht]
  refine ⟨h1, h2, ?_⟩
  intro n
  induction n with
  | zero => rfl
  | succ n ih =>
    rw [List.replicate_succ]
    simp [drainDeque, h1, ih, List.replicate_succ]

theorem C4_witness :
    popN First.List.pop First.List.new 2 =
      (List.replicate 2 Option.none, First.List.new) ∧
    popN Second.List.pop (Second.List.new : Second.List Int) 2 =
      (List.replicate 2 Option.none, Second.List.new) ∧
    (Fourth.List.new : Fourth.List Int).pop_front =
      Option.some (Option.none, Fourth.List.new) :=
  ⟨C4_pop_empty.1 First.List.new rfl 2,
   C4_pop_empty.2.1 Int Second.List.new rfl 2,
   (C4_pop_empty.2.2 Int Fourth.List.new rfl rfl).1⟩

/-- C5 (counterexample): on the four-node chain `exChain5` whose node at
position 2 is still held by a handle elsewhere (`exShared`), the active
`third.rs` destructor performs 4 loop iterations — it traverses the whole
chain — and not at most 3, as the claimed "stops early ... without
traversing further at the first node still held elsewhere" would require.
(The freed nodes are exactly those before position 2: the final heap is
the intact shared suffix.) -/
theorem C5_counterexample :
    ThirdRc.sharedIdx exChain5 exShared = 2 ∧
    ThirdRc.dropList (ThirdRc.mkChain exChain5) exShared
      (ThirdRc.chainHead exChain5) =
      (ThirdRc.mkChain [(2, 12), (3, 13)], 4) ∧
    ¬ (ThirdRc.dropList (ThirdRc.mkChain exChain5) exShared
        (ThirdRc.chainHead exChain5)).2 ≤
      ThirdRc.sharedIdx exChain5 exShared + 1 := by
  refine ⟨by decide, by decide, by decide⟩

/-- C5 (amended): the `third.rs` destructor releases its handles
iteratively front-to-back and stops *freeing* — without releasing any
further node — at the first node still held by a handle elsewhere
(detected via the reference count); however it does not stop *traversing*
there: the loop walks the entire chain (`c.length` iterations), keeping
the suffix from the first shared node on intact in the heap. -/
theorem C5_drop_frees_prefix_traverses_all :
    ∀ (c : List (Addr × Int)) (extRefs : List Addr),
      (c.map Prod.fst).Nodup →
      ThirdRc.dropList (ThirdRc.mkChain c) extRefs (ThirdRc.chainHead c) =
        (ThirdRc.mkChain (c.drop (ThirdRc.sharedIdx c extRefs)), c.length) :=
  fun c extRefs hnd => dropList_chain c extRefs hnd

theorem C5_witness :
    (exChain5.map Prod.fst).Nodup ∧
    ThirdRc.dropList (ThirdRc.mkChain exChain5) exShared
      (ThirdRc.chainHead exChain5) =
      (ThirdRc.mkChain (exChain5.drop (ThirdRc.sharedIdx exChain5 exShared)),
        exChain5.length) :=
  ⟨by decide, C5_drop_frees_prefix_traverses_all exChain5 exShared (by decide)⟩

/-- C6: for every deque reachable from `new()` by any sequence of
push/pop operations, no operation ever panics; in particular the
extraction failure branch of `pop_front`/`pop_back`
(`Rc::try_unwrap` on a node with more than one remaining owner) is
unreachable — at the extraction point the popped node's only remaining
owner is the local handle taken from the list's `head`/`tail` field. -/
theorem C6_extraction_failure_unreachable :
    ∀ (T : Type) (ops : List (Fourth.Op T)),
      (runOps (Fourth.List.new : Fourth.List T) ops).isSome = true := by
  intro T ops
  obtain ⟨s', c', h, _⟩ := runOps_spec ops Fourth.List.new [] new_represents
  rw [h]
  rfl

/-- C7: destruction of every list/deque is an iterative loop, one node
unlinked and released per iteration, with the loop state a plain value
(no recursion): for `first.rs` and `second.rs` the `while let` loop's step
function reaches the exit state in exactly `length` iterations (one more
step reports the loop exited), and for `fourth.rs` the destructor's
repeated `pop_front` empties a deque of `n` nodes in `n` pops (the
`n+1`-st yields absent), deallocating every node (final heap empty) —
all independent of the length `n`. -/
theorem C7_drop_iterative :
    (∀ l : First.List,
      iterN First.dropStepO (Option.some l.head) l.head.length =
        Option.some First.Link.Empty ∧
      iterN First.dropStepO (Option.some l.head) (l.head.length + 1) =
        Option.none) ∧
    (∀ (T : Type) (l : Second.List T),
      iterN Second.dropStepO (Option.some l.head) l.head.length =
        Option.some Second.Link.none ∧
      iterN Second.dropStepO (Option.some l.head) (l.head.length + 1) =
        Option.none) ∧
    (∀ (T : Type) (s : Fourth.List T) (c : List (Addr × T)), Represents s c →
      ∃ s', drainDeque s (List.replicate (c.length + 1) true) =
          Option.some ((elems c).map Option.some ++ [Option.none], s') ∧
        s'.head = Option.none ∧ s'.tail = Option.none ∧ s'.heap = []) := by
  refine ⟨fun l => first_drop_iter l.head, fun T l => second_drop_iter l.head, ?_⟩
  intro T s c R
  obtain ⟨s', h1, R'⟩ := drain_spec (List.replicate (c.length + 1) true) s c R
  rw [chainDrain_replicate] at R'
  obtain ⟨_, _, hh, ht, hp⟩ := R'
  have hdm : drainModel (elems c) (List.replicate (c.length + 1) true) =
      (elems c).map Option.some ++ [Option.none] := by
    have h2 := drainModel_replicate (elems c)
    rw [show (elems c).length = c.length from List.length_map _ _] at h2
    exact h2
  refine ⟨s', ?_, hh, ht, hp.eq_nil⟩
  rw [h1, hdm]

theorem C7_witness :
    ∃ s', drainDeque exDeque (List.replicate (exChainD.length + 1) true) =
        Option.some ((elems exChainD).map Option.some ++ [Option.none], s') ∧
      s'.head = Option.none ∧ s'.tail = Option.none ∧ s'.heap = [] :=
  C7_drop_iterative.2.2 Int exDeque exChainD
    ⟨by decide, by decide, rfl, rfl, List.Perm.refl _⟩

/-- C8: for every deque reachable from `new()` by push/pop operations, the
`head` field is absent exactly when the `tail` field is absent (a push
into the empty deque sets both, a pop of the last node clears both). -/
theorem C8_head_none_iff_tail_none :
    ∀ (T : Type) (ops : List (Fourth.Op T)) (s : Fourth.List T),
      runOps (Fourth.List.new : Fourth.List T) ops = Option.some s →
      (s.head = Option.none ↔ s.tail = Option.none) := by
  intro T ops s hrun
  obtain ⟨s', c', h, R⟩ := runOps_spec ops Fourth.List.new [] new_represents
  rw [hrun] at h
  have hs : s = s' := Option.some.inj h
  subst hs
  obtain ⟨_, _, hh, ht, _⟩ := R
  rw [hh, ht, headAddr_eq_none_iff, lastAddr_eq_none_iff]

theorem C8_witness :
    (Fourth.List.new : Fourth.List Int).head = Option.none ↔
      (Fourth.List.new : Fourth.List Int).tail = Option.none :=
  C8_head_none_iff_tail_none Int [] Fourth.List.new rfl

/-- C9: on every non-empty deque, writing a value through the guard
returned by `peek_front_mut` and releasing the guard makes the very next
`peek_front` return that value; in particular on the deque front-pushed
with 3, 2, 1 (front value 1), the mutated front value is what the
immediately following `peek_front` sees. -/
theorem C9_peek_front_mut_visible :
    (∀ (T : Type) (s : Fourth.List T) (v : T),
      (s.peek_front).isSome = true →
      Fourth.List.peek_front
        (match s.peek_front_mut with
         | Option.some g => Fourth.guardWrite s g v
         | Option.none => s) = Option.some v) ∧
    (exDeque9.peek_front = Option.some 1 ∧
     Fourth.List.peek_front
       (match exDeque9.peek_front_mut with
        | Option.some g => Fourth.guardWrite exDeque9 g (42 : Int)
        | Option.none => exDeque9) = Option.some 42) := by
  constructor
  · intro T s v hs
    cases hh : s.head with
    | none =>
      exfalso
      rw [Fourth.List.peek_front, hh] at hs
      simp at hs
    | some a =>
      cases hg : heapGet s.heap a with
      | none =>
        exfalso
        rw [Fourth.List.peek_front, hh] at hs
        simp [hg] at hs
      | some n =>
        have hpm : s.peek_front_mut = Option.some a := hh
        rw [hpm]
        show Fourth.List.peek_front (Fourth.guardWrite s a v) = _
        have hgw : Fourth.guardWrite s a v =
            ⟨s.head, s.tail, heapSet s.heap a ⟨v, n.next, n.prev⟩, s.fresh⟩ := by
          simp [Fourth.guardWrite, hg]
        have hget : heapGet (heapSet s.heap a ⟨v, n.next, n.prev⟩) a =
            Option.some ⟨v, n.next, n.prev⟩ := heapGet_heapSet _ hg
        rw [hgw]
        simp [Fourth.List.peek_front, hh, hget]
  · exact ⟨by decide, by decide⟩

theorem C9_witness :
    Fourth.List.peek_front
      (match exDeque9.peek_front_mut with
       | Option.some g => Fourth.guardWrite exDeque9 g (7 : Int)
       | Option.none => exDeque9) = Option.some 7 :=
  C9_peek_front_mut_visible.1 Int exDeque9 7 (by decide)
